import Mathlib

set_option maxRecDepth 8000

/-!
Verification of the directory resolver and registry-client interface of
sriramut18/pkgsite.

The resolver is `GetDirectory` in `src/internal/postgres/directory.go`,
whose behaviour is determined by the SQL text built in
`constructDirectoryQueryAndArgs` (lines 89-159) together with the Go
post-processing (lines 72-87).  The SQL is embedded here as executable
list-processing over an explicit table state (`DB`): `LIKE` matching is
implemented with its `%`/`_` wildcard semantics, the `INNER JOIN` as a
flat map, and `DISTINCT ON ... ORDER BY` as a per-module minimum under
the transcribed ordering key.

The registry ("proxy") client `GetInfo` / `ListVersions` / `GetZip` has
only its tests in the repository (`src/internal/proxy/client_test.go`);
those operations are modelled from the specification, as marked on each
definition.
-/

namespace Pkgsite

/-- SQL `LIKE` matching over character lists: `%` matches any (possibly
empty) sequence — rendered as: the rest of the pattern matches some
suffix of the subject — `_` matches exactly one character, anything else
matches itself.  This is the semantics of the `LIKE` operators appearing
in the query built by `constructDirectoryQueryAndArgs` (directory.go
lines 111-158); the query uses no `ESCAPE` clause. -/
def likeMatch : List Char → List Char → Bool
  | [], s => s.isEmpty
  | p :: ps, s =>
    if p = '%' then
      s.tails.any (likeMatch ps)
    else
      match s with
      | [] => false
      | c :: t => (if p = '_' then true else p == c) && likeMatch ps t

/-- `s LIKE pat` for strings, as used in the SQL. -/
def stringLike (s pat : String) : Bool :=
  likeMatch pat.data s.data

/-- A string free of SQL wildcard characters; the path and module-path
strings the spec's claims quantify over are of this shape. -/
def noWild (s : String) : Prop :=
  '%' ∉ s.data ∧ '_' ∉ s.data

instance (s : String) : Decidable (noWild s) := by
  unfold noWild; infer_instance

/-- A row of the `packages` table restricted to the columns the resolver's
logic inspects (`p.path`, `p.version`, `p.name`, `p.synopsis`,
`p.module_path` in the SELECT of directory.go lines 91-109).  The further
selected columns (documentation, licenses, readme, commit time, version
type, repository/vcs/homepage URL) are carried through unexamined by the
code and are omitted from the row type. -/
structure VersionedPackage where
  path : String
  modulePath : String
  version : String
  name : String
  synopsis : String
deriving DecidableEq, Repr

/-- A row of the `versions` table restricted to the columns the query
inspects: identity (`module_path`, `version`) and the ranking columns of
the `ORDER BY` at directory.go lines 143-152 (`major`, `minor`, `patch`,
`prerelease`, where the stored convention is `prerelease = "~"` for a
release). -/
structure VersionRow where
  modulePath : String
  version : String
  major : Nat
  minor : Nat
  patch : Nat
  prerelease : String
deriving DecidableEq, Repr

/-- The queried store: the two tables the query built by
`constructDirectoryQueryAndArgs` reads. -/
structure DB where
  packages : List VersionedPackage
  versions : List VersionRow
deriving DecidableEq, Repr

/-- `proxy.Latest`, the sentinel version selector compared against at
directory.go line 111. -/
def Latest : String := "latest"

/-- Error kinds produced by the embedded operations (`derrors.NotFound`
at directory.go line 76, and the registry client's kinds). -/
inductive DErr where
  | notFound
  | protocolViolation
deriving DecidableEq, Repr

/-- The result type of `GetDirectory` (directory.go lines 81-86). -/
structure Directory where
  path : String
  modulePath : String
  version : String
  packages : List VersionedPackage
deriving DecidableEq, Repr

/-- Rows produced by the concrete-version branch of the query
(directory.go lines 111-124): the `versions` sub-select keeps rows with
`version = $2 AND $1 || '/' LIKE module_path || '/%'`, the `INNER JOIN`
is on `p.module_path = v.module_path AND v.version = p.version`, and the
outer `WHERE` keeps `path LIKE $1 || '/%'`. -/
def dirRowsExact (db : DB) (dirPath version : String) : List VersionedPackage :=
  let vrows := db.versions.filter fun v =>
    v.version == version && stringLike (dirPath ++ "/") (v.modulePath ++ "/%")
  db.packages.flatMap fun p =>
    vrows.filterMap fun v =>
      if p.modulePath == v.modulePath && v.version == p.version
          && stringLike p.path (dirPath ++ "/%")
      then some p else none

/-- `CASE WHEN prerelease = '~' THEN 0 ELSE 1 END` (directory.go
line 148). -/
def releaseFlag (v : VersionRow) : Nat :=
  if v.prerelease = "~" then 0 else 1

/-- `a` sorts strictly before `b` under the `ORDER BY` of directory.go
lines 143-152 (after the leading `module_path` column, which the
per-module grouping already fixes): release flag ascending, then `major`,
`minor`, `patch` and `prerelease` each descending. -/
def rankBefore (a b : VersionRow) : Bool :=
  if releaseFlag a ≠ releaseFlag b then decide (releaseFlag a < releaseFlag b)
  else if a.major ≠ b.major then decide (b.major < a.major)
  else if a.minor ≠ b.minor then decide (b.minor < a.minor)
  else if a.patch ≠ b.patch then decide (b.patch < a.patch)
  else decide (b.prerelease.data < a.prerelease.data)

/-- Keep the better-ranked of two rows (the earlier row on a tie, as
`DISTINCT ON` keeps the first row in sort order). -/
def pickBetter (a b : VersionRow) : VersionRow :=
  if rankBefore b a then b else a

/-- The row `DISTINCT ON (module_path)` retains from one module's
candidate rows: the minimum under the `ORDER BY`. -/
def selectBest : List VersionRow → Option VersionRow
  | [] => none
  | r :: rs => some (rs.foldl pickBetter r)

/-- The `versions` rows satisfying the sub-select's `WHERE` clause in the
latest branch (directory.go line 142): `$1 || '/' LIKE module_path || '/'
|| '%'`. -/
def latestCandidates (db : DB) (dirPath : String) : List VersionRow :=
  db.versions.filter fun v => stringLike (dirPath ++ "/") (v.modulePath ++ "/%")

/-- The sub-select of the latest branch (directory.go lines 128-153):
`DISTINCT ON (module_path)` over the candidates, ordered per module by
the ranking key. -/
def latestRows (db : DB) (dirPath : String) : List VersionRow :=
  (((latestCandidates db dirPath).map fun v => v.modulePath).dedup).filterMap fun m =>
    selectBest ((latestCandidates db dirPath).filter fun v => v.modulePath == m)

/-- Rows produced by the latest branch of the query (directory.go lines
127-158): join the packages table against the `DISTINCT ON` sub-select on
`v.module_path = p.module_path AND v.version = p.version`, keeping
`path LIKE $1 || '/' || '%'`. -/
def dirRowsLatest (db : DB) (dirPath : String) : List VersionedPackage :=
  let vrows := latestRows db dirPath
  db.packages.flatMap fun p =>
    vrows.filterMap fun v =>
      if v.modulePath == p.modulePath && v.version == p.version
          && stringLike p.path (dirPath ++ "/%")
      then some p else none

/-- The rows the query returns: directory.go line 111 branches on
`version != proxy.Latest`. -/
def dirRows (db : DB) (dirPath version : String) : List VersionedPackage :=
  if version ≠ Latest then dirRowsExact db dirPath version
  else dirRowsLatest db dirPath

/-- The ordering `sort.Slice` applies at directory.go lines 78-80:
by package path. -/
def pkgLE (a b : VersionedPackage) : Prop :=
  a.path ≤ b.path

instance : DecidableRel pkgLE :=
  fun a b => decidable_of_iff (a.path.toList ≤ b.path.toList)
    String.le_iff_toList_le.symm

instance : IsTotal VersionedPackage pkgLE :=
  ⟨fun a b => le_total a.path b.path⟩

instance : IsTrans VersionedPackage pkgLE :=
  ⟨fun _ _ _ h1 h2 => le_trans h1 h2⟩

/-- `DB.GetDirectory` (directory.go lines 42-87): run the query, fail
with not-found on an empty row set (lines 75-77), otherwise sort the rows
by package path (lines 78-80) and build the `Directory` from the queried
path and the first row's module path and version (lines 81-86).  The
emptiness test is performed on the sorted list here; sorting preserves
emptiness, so this agrees with the source, which tests before sorting. -/
def GetDirectory (db : DB) (dirPath version : String) : Except DErr Directory :=
  match List.insertionSort pkgLE (dirRows db dirPath version) with
  | [] => .error .notFound
  | p :: ps => .ok ⟨dirPath, p.modulePath, p.version, p :: ps⟩

/-- The `ORDER BY` of directory.go lines 143-152 as a lexicographic sort
key: release flag ascending, then `major`, `minor`, `patch` and
`prerelease` descending (order-dualized).  `rankBefore` computes exactly
the strict order of this key (`rankBefore_iff_key_lt` below). -/
def key (v : VersionRow) : ℕ ×ₗ (ℕᵒᵈ ×ₗ (ℕᵒᵈ ×ₗ (ℕᵒᵈ ×ₗ Stringᵒᵈ))) :=
  toLex (releaseFlag v, toLex (OrderDual.toDual v.major,
    toLex (OrderDual.toDual v.minor,
      toLex (OrderDual.toDual v.patch, OrderDual.toDual v.prerelease))))

/-- One module version served by the registry, as set up by
`NewTestVersion` in the client tests: a module path, a version and the
version's files. -/
structure TestVersion where
  modulePath : String
  version : String
  files : List (String × String)
deriving DecidableEq, Repr

/-- Modelled from the spec: `VersionInfo` (§3), the identity of one
resolved module version returned by `GetInfo`.  The commit timestamp is
not inspected by any claim and is omitted. -/
structure VersionInfo where
  modulePath : String
  version : String
deriving DecidableEq, Repr

/-- Modelled from the spec: parsing of a semantic-version-shaped string
`vMAJOR.MINOR.PATCH[-prerelease]` (§3) into the ranking columns of §4.2,
with the store's convention `prerelease = "~"` for a release. -/
def splitOnChar (sep : Char) (l : List Char) : List (List Char) :=
  l.foldr
    (fun c acc =>
      match acc with
      | [] => [[c]]
      | g :: gs => if c = sep then [] :: g :: gs else (c :: g) :: gs)
    [[]]

/-- Modelled from the spec: decimal reading of a version component. -/
def natOfDigits (l : List Char) : Nat :=
  l.foldl (fun n c => n * 10 + (c.toNat - 48)) 0

def parseVersion (m s : String) : VersionRow :=
  let body := s.data.drop 1
  let parts := splitOnChar '-' body
  let numPart := parts.headD body
  let pre : String :=
    if parts.length ≤ 1 then "~" else ⟨List.intercalate ['-'] parts.tail⟩
  match splitOnChar '.' numPart with
  | [a, b, c] => ⟨m, s, natOfDigits a, natOfDigits b, natOfDigits c, pre⟩
  | _ => ⟨m, s, 0, 0, 0, pre⟩

/-- Modelled from the spec: the registry client `GetInfo` (§4.1, the
implementation `internal/proxy.Client.GetInfo` is not part of the
repository fragment).  On the `"latest"` sentinel the registry resolves
the canonical current release, ranked by the key of §4.2; on a concrete
version it reports that version iff registered, and not-found
otherwise. -/
def getInfo (proxy : List TestVersion) (m ver : String) : Except DErr VersionInfo :=
  let vs := proxy.filter fun t => t.modulePath == m
  if ver = Latest then
    match selectBest (vs.map fun t => parseVersion m t.version) with
    | some r => .ok ⟨m, r.version⟩
    | none => .error .notFound
  else if vs.any fun t => t.version == ver then .ok ⟨m, ver⟩
  else .error .notFound

/-- Modelled from the spec: the registry client `ListVersions` (§4.1, the
implementation is not part of the repository fragment): the version
strings registered for exactly the queried module path, not-found when
the module is unknown. -/
def listVersions (proxy : List TestVersion) (m : String) : Except DErr (List String) :=
  let vs := proxy.filter fun t => t.modulePath == m
  if vs.isEmpty then .error .notFound else .ok (vs.map fun t => t.version)

/-- The archive the registry serves for one module version: each file
under the `modulePath@version/` directory, as built by the test proxy. -/
def zipOf (t : TestVersion) : List String :=
  t.files.map fun f => t.modulePath ++ "@" ++ t.version ++ "/" ++ f.1

/-- Modelled from the spec: the registry client `GetZip` (§4.1, the
implementation is not part of the repository fragment): not-found when
the module/version is unknown; otherwise the archive's entry list, after
checking that every entry carries the `modulePath@version/` prefix —
entries violating this are a protocol-violation error. -/
def getZip (proxy : List TestVersion) (m ver : String) : Except DErr (List String) :=
  match proxy.find? (fun t => t.modulePath == m && t.version == ver) with
  | none => .error .notFound
  | some t =>
    if (zipOf t).all (fun e => List.isPrefixOf (m ++ "@" ++ ver ++ "/").data e.data)
    then .ok (zipOf t) else .error .protocolViolation

/-- A release-version row without prerelease tag, for the example
stores. -/
def relRow (m v : String) (a b c : Nat) : VersionRow :=
  ⟨m, v, a, b, c, "~"⟩

/-- A package record, for the example stores. -/
def mkPkg (p m v : String) : VersionedPackage :=
  ⟨p, m, v, "pkg", ""⟩

/-- Store holding a single package at exactly `x/tools/go`, in module
`x/tools` at `v1.0.0`. -/
def exactPathDB : DB :=
  ⟨[mkPkg "x/tools/go" "x/tools" "v1.0.0"],
   [relRow "x/tools" "v1.0.0" 1 0 0]⟩

/-- Store with packages under `x/tools/go` in module `x/tools`: one at
`x/tools/go/packages` and a sibling `x/tools/goop`. -/
def toolsDB : DB :=
  ⟨[mkPkg "x/tools/go/packages" "x/tools" "v1.0.0",
    mkPkg "x/tools/goop" "x/tools" "v1.0.0"],
   [relRow "x/tools" "v1.0.0" 1 0 0]⟩

/-- Store in which the package path `p/api/sub` is provided both by
module `p/api` and by module `p`, at the same version. -/
def twoModuleDB : DB :=
  ⟨[mkPkg "p/api/sub" "p/api" "v1.0.0",
    mkPkg "p/api/sub" "p" "v1.0.0"],
   [relRow "p/api" "v1.0.0" 1 0 0,
    relRow "p" "v1.0.0" 1 0 0]⟩

/-- Store for the latest-selection scenario: module `foo.com/bar` with
versions `v1.1.0` and `v1.2.0`. -/
def latestDB : DB :=
  ⟨[mkPkg "foo.com/bar/b" "foo.com/bar" "v1.1.0",
    mkPkg "foo.com/bar/b" "foo.com/bar" "v1.2.0"],
   [relRow "foo.com/bar" "v1.1.0" 1 1 0,
    relRow "foo.com/bar" "v1.2.0" 1 2 0]⟩

/-- The registry of `TestGetLatestInfo` (client_test.go lines 23-27):
`foo.com/bar` at `v1.1.0` and `v1.2.0`. -/
def latestProxy : List TestVersion :=
  [⟨"foo.com/bar", "v1.1.0", [("bar.go", "package bar")]⟩,
   ⟨"foo.com/bar", "v1.2.0", [("bar.go", "package bar")]⟩]

/-- The registry of `TestListVersions` (client_test.go lines 46-51):
`foo.com/bar` at `v1.1.0`, `v1.2.0` and the sibling `foo.com/baz` at
`v1.3.0`. -/
def listProxy : List TestVersion :=
  [⟨"foo.com/bar", "v1.1.0", [("bar.go", "package bar")]⟩,
   ⟨"foo.com/bar", "v1.2.0", [("bar.go", "package bar")]⟩,
   ⟨"foo.com/baz", "v1.3.0", [("baz.go", "package bar")]⟩]

/-- The default registry of `SetupTestProxy(t, nil)`, as far as the
claims inspect it: `github.com/my/module@v1.0.0` with the seven files
listed in `TestGetZip` (client_test.go lines 117-128). -/
def defaultProxy : List TestVersion :=
  [⟨"github.com/my/module", "v1.0.0",
    [("LICENSE", ""), ("README.md", ""), ("go.mod", ""),
     ("foo/foo.go", ""), ("foo/LICENSE.md", ""),
     ("bar/bar.go", ""), ("bar/LICENSE", "")]⟩]

theorem likeMatch_pct_any (s : List Char) : likeMatch ['%'] s = true := by
  rw [likeMatch.eq_def]
  simp only [if_pos rfl]
  apply List.any_eq_true.mpr
  exact ⟨[], (List.mem_tails _ _).mpr ⟨s, by simp⟩, rfl⟩

theorem likeMatch_pct_iff (lit s : List Char) (h1 : '%' ∉ lit) (h2 : '_' ∉ lit) :
    likeMatch (lit ++ ['%']) s = true ↔ lit <+: s := by
  induction lit generalizing s with
  | nil => simpa using likeMatch_pct_any s
  | cons c cs ih =>
    have hc1 : c ≠ '%' := by intro h; exact h1 (h ▸ List.mem_cons_self c cs)
    have hc2 : c ≠ '_' := by intro h; exact h2 (h ▸ List.mem_cons_self c cs)
    have h1' : '%' ∉ cs := fun h => h1 (List.mem_cons_of_mem c h)
    have h2' : '_' ∉ cs := fun h => h2 (List.mem_cons_of_mem c h)
    cases s with
    | nil =>
      rw [List.cons_append, likeMatch, if_neg hc1]
      simp
    | cons d t =>
      rw [List.cons_append, likeMatch, if_neg hc1]
      simp only [if_neg hc2, Bool.and_eq_true, beq_iff_eq, ih t h1' h2',
        List.cons_prefix_cons]

theorem stringLike_pct_iff (lit s : String) (h : noWild lit) :
    stringLike s (lit ++ "%") = true ↔ lit.data <+: s.data := by
  have hdata : (lit ++ "%").data = lit.data ++ ['%'] := by
    simp
  rw [stringLike, hdata, likeMatch_pct_iff lit.data s.data h.1 h.2]

theorem noWild_append_slash {s : String} (h : noWild s) : noWild (s ++ "/") := by
  constructor
  · simp only [String.data_append]
    intro hm
    rcases List.mem_append.mp hm with hm | hm
    · exact h.1 hm
    · simp at hm
  · simp only [String.data_append]
    intro hm
    rcases List.mem_append.mp hm with hm | hm
    · exact h.2 hm
    · simp at hm



theorem rankBefore_iff_key_lt (a b : VersionRow) :
    rankBefore a b = true ↔ key a < key b := by
  unfold rankBefore key
  simp only [Prod.Lex.lt_iff, OrderDual.toDual_lt_toDual, OrderDual.toDual_inj,
    decide_eq_true_eq, ← String.lt_iff_toList_lt, String.toList]
  split_ifs with h1 h2 h3 h4 <;> simp_all


theorem key_le_of_rankBefore_false {a b : VersionRow} (h : rankBefore b a = false) :
    key a ≤ key b :=
  le_of_not_lt fun hlt => by
    rw [← rankBefore_iff_key_lt] at hlt
    rw [h] at hlt
    exact Bool.false_ne_true hlt

theorem foldl_pickBetter_spec (l : List VersionRow) (a : VersionRow) :
    (l.foldl pickBetter a = a ∨ l.foldl pickBetter a ∈ l) ∧
    key (l.foldl pickBetter a) ≤ key a ∧
    ∀ r ∈ l, key (l.foldl pickBetter a) ≤ key r := by
  induction l generalizing a with
  | nil => simp
  | cons r t ih =>
    simp only [List.foldl_cons, List.mem_cons]
    have hstep : key (pickBetter a r) ≤ key a ∧ key (pickBetter a r) ≤ key r ∧
        (pickBetter a r = a ∨ pickBetter a r = r) := by
      cases hrb : rankBefore r a with
      | true =>
        have he : pickBetter a r = r := by simp [pickBetter, hrb]
        rw [he]
        exact ⟨le_of_lt ((rankBefore_iff_key_lt r a).mp hrb), le_refl _, Or.inr rfl⟩
      | false =>
        have he : pickBetter a r = a := by simp [pickBetter, hrb]
        rw [he]
        exact ⟨le_refl _, key_le_of_rankBefore_false hrb, Or.inl rfl⟩
    obtain ⟨hmem, hlea, hall⟩ := ih (pickBetter a r)
    refine ⟨?_, le_trans hlea hstep.1, ?_⟩
    · rcases hmem with hm | hm
      · rcases hstep.2.2 with hpa | hpr
        · exact Or.inl (hm.trans hpa)
        · exact Or.inr (Or.inl (hm.trans hpr))
      · exact Or.inr (Or.inr hm)
    · intro x hx
      rcases hx with rfl | hx
      · exact le_trans hlea hstep.2.1
      · exact hall x hx

theorem selectBest_spec {l : List VersionRow} {c : VersionRow}
    (h : selectBest l = some c) : c ∈ l ∧ ∀ r ∈ l, key c ≤ key r := by
  cases l with
  | nil => simp [selectBest] at h
  | cons r t =>
    have hc : t.foldl pickBetter r = c := by
      simpa [selectBest] using h
    obtain ⟨hmem, hlea, hall⟩ := foldl_pickBetter_spec t r
    rw [hc] at hmem hlea hall
    refine ⟨?_, ?_⟩
    · rcases hmem with hm | hm
      · exact hm ▸ List.mem_cons_self r t
      · exact List.mem_cons_of_mem r hm
    · intro x hx
      rcases List.mem_cons.mp hx with hx | hx
      · exact hx ▸ hlea
      · exact hall x hx


theorem mem_dirRowsExact {db : DB} {dp ver : String} {r : VersionedPackage} :
    r ∈ dirRowsExact db dp ver ↔
      r ∈ db.packages ∧ stringLike r.path (dp ++ "/%") = true ∧
      ∃ v ∈ db.versions, v.modulePath = r.modulePath ∧ v.version = r.version ∧
        v.version = ver ∧ stringLike (dp ++ "/") (v.modulePath ++ "/%") = true := by
  unfold dirRowsExact
  simp only [List.mem_flatMap, List.mem_filterMap, List.mem_filter, Bool.and_eq_true,
    beq_iff_eq]
  constructor
  · rintro ⟨p, hp, v, ⟨hv, hveq, hvlike⟩, hif⟩
    split at hif
    · rename_i hcond
      obtain ⟨⟨hm, hvv⟩, hpath⟩ := hcond
      cases hif
      exact ⟨hp, hpath, v, hv, hm.symm, hvv, hveq, hvlike⟩
    · exact absurd hif (by simp)
  · rintro ⟨hp, hpath, v, hv, hm, hvv, hveq, hvlike⟩
    refine ⟨r, hp, v, ⟨hv, hveq, hvlike⟩, ?_⟩
    rw [if_pos ⟨⟨hm.symm, hvv⟩, hpath⟩]

theorem mem_latestRows {db : DB} {dp : String} {r : VersionRow} :
    r ∈ latestRows db dp ↔
      ∃ m, m ∈ ((latestCandidates db dp).map fun v => v.modulePath).dedup ∧
        selectBest ((latestCandidates db dp).filter fun v => v.modulePath == m) = some r := by
  unfold latestRows
  simp only [List.mem_filterMap]

theorem mem_dirRowsLatest {db : DB} {dp : String} {r : VersionedPackage} :
    r ∈ dirRowsLatest db dp ↔
      r ∈ db.packages ∧ stringLike r.path (dp ++ "/%") = true ∧
      ∃ v ∈ latestRows db dp, v.modulePath = r.modulePath ∧ v.version = r.version := by
  unfold dirRowsLatest
  simp only [List.mem_flatMap, List.mem_filterMap, Bool.and_eq_true, beq_iff_eq]
  constructor
  · rintro ⟨p, hp, v, hv, hif⟩
    split at hif
    · rename_i hcond
      obtain ⟨⟨hm, hvv⟩, hpath⟩ := hcond
      cases hif
      exact ⟨hp, hpath, v, hv, hm, hvv⟩
    · exact absurd hif (by simp)
  · rintro ⟨hp, hpath, v, hv, hm, hvv⟩
    refine ⟨r, hp, v, hv, ?_⟩
    rw [if_pos ⟨⟨hm, hvv⟩, hpath⟩]


theorem pat_split (dp : String) : dp ++ "/%" = (dp ++ "/") ++ "%" := by
  apply String.ext
  simp

theorem stringLike_slash_pct_iff {lit : String} (s : String) (h : noWild lit) :
    stringLike s (lit ++ "/%") = true ↔ (lit ++ "/").data <+: s.data := by
  rw [pat_split, stringLike_pct_iff _ _ (noWild_append_slash h)]

theorem selectBest_of_ne_nil {l : List VersionRow} (h : l ≠ []) :
    ∃ c, selectBest l = some c := by
  cases l with
  | nil => exact absurd rfl h
  | cons r t => exact ⟨t.foldl pickBetter r, rfl⟩

theorem latestRows_spec {db : DB} {dp : String} {r : VersionRow}
    (h : r ∈ latestRows db dp) :
    r ∈ latestCandidates db dp ∧
      ∀ rp ∈ latestCandidates db dp, rp.modulePath = r.modulePath → key r ≤ key rp := by
  obtain ⟨m, _, hsel⟩ := mem_latestRows.mp h
  obtain ⟨hmem, hmin⟩ := selectBest_spec hsel
  have hrm : r ∈ latestCandidates db dp ∧ r.modulePath = m := by
    simpa using List.mem_filter.mp hmem
  refine ⟨hrm.1, fun rp hrp hrpm => ?_⟩
  apply hmin
  apply List.mem_filter.mpr
  simp [hrp, hrpm, hrm.2]

theorem latestRows_module_eq {db : DB} {dp : String} {r : VersionRow}
    (h : r ∈ latestRows db dp) :
    selectBest ((latestCandidates db dp).filter
      fun v => v.modulePath == r.modulePath) = some r := by
  obtain ⟨m, _, hsel⟩ := mem_latestRows.mp h
  obtain ⟨hmem, _⟩ := selectBest_spec hsel
  have hrm : r.modulePath = m := by
    simpa using (List.mem_filter.mp hmem).2
  rw [hrm]
  exact hsel

theorem getDirectory_error_iff {db : DB} {dp ver : String} :
    GetDirectory db dp ver = .error DErr.notFound ↔ dirRows db dp ver = [] := by
  unfold GetDirectory
  have hperm := List.perm_insertionSort pkgLE (dirRows db dp ver)
  cases hs : List.insertionSort pkgLE (dirRows db dp ver) with
  | nil =>
    rw [hs] at hperm
    constructor
    · intro _
      exact hperm.symm.eq_nil
    · intro _
      rfl
  | cons p ps =>
    rw [hs] at hperm
    constructor
    · intro hcontr; exact absurd hcontr (by simp)
    · intro hnil
      rw [hnil] at hperm
      exact absurd hperm.eq_nil (by simp)

theorem getDirectory_ok_spec {db : DB} {dp ver : String} {d : Directory}
    (h : GetDirectory db dp ver = .ok d) :
    d.path = dp ∧
    d.packages = List.insertionSort pkgLE (dirRows db dp ver) ∧
    ∃ p ps, d.packages = p :: ps ∧ d.modulePath = p.modulePath ∧
      d.version = p.version := by
  unfold GetDirectory at h
  cases hs : List.insertionSort pkgLE (dirRows db dp ver) with
  | nil => rw [hs] at h; exact absurd h (by simp)
  | cons p ps =>
    rw [hs] at h
    cases h
    exact ⟨rfl, rfl, p, ps, rfl, rfl, rfl⟩


/-- C7: `GetDirectory` fails with a not-found error exactly when the
surviving record set is empty, and a successful call never returns an
empty package list. -/
theorem getDirectory_notFound_iff_empty :
    ∀ (db : DB) (dp ver : String),
      (GetDirectory db dp ver = .error DErr.notFound ↔ dirRows db dp ver = []) ∧
      ∀ d, GetDirectory db dp ver = .ok d → d.packages ≠ [] := by
  intro db dp ver
  refine ⟨getDirectory_error_iff, fun d hd => ?_⟩
  obtain ⟨_, _, p, ps, hps, _, _⟩ := getDirectory_ok_spec hd
  rw [hps]
  simp

/-- Witness for C7: on a store whose only record sits at exactly the
queried path (which the query excludes), the surviving set is empty and
the call reports not-found. -/
theorem getDirectory_notFound_iff_empty_witness :
    GetDirectory exactPathDB "x/tools/go" "v1.0.0" = .error DErr.notFound :=
  (getDirectory_notFound_iff_empty exactPathDB "x/tools/go" "v1.0.0").1.mpr (by decide)

/-- C10: every call returns either a not-found error or a fully populated
`Directory`: the queried path, a non-empty, path-sorted package list, and
module path and version taken from the first package record. -/
theorem getDirectory_result_discriminated :
    ∀ (db : DB) (dp ver : String),
      GetDirectory db dp ver = .error DErr.notFound ∨
      ∃ d, GetDirectory db dp ver = .ok d ∧ d.path = dp ∧ d.packages ≠ [] ∧
        List.Sorted pkgLE d.packages ∧
        ∃ p ps, d.packages = p :: ps ∧ d.modulePath = p.modulePath ∧
          d.version = p.version := by
  intro db dp ver
  have hsorted := List.sorted_insertionSort pkgLE (dirRows db dp ver)
  unfold GetDirectory
  cases hs : List.insertionSort pkgLE (dirRows db dp ver) with
  | nil => exact Or.inl rfl
  | cons p ps =>
    rw [hs] at hsorted
    exact Or.inr ⟨⟨dp, p.modulePath, p.version, p :: ps⟩, rfl, rfl, by simp,
      hsorted, p, ps, rfl, rfl, rfl⟩

/-- C6 counterexample: on a store in which the package path `p/api/sub`
is provided by both module `p/api` and module `p`, the returned package
list contains the same import path twice, contradicting the claimed
absence of duplicates. -/
theorem getDirectory_duplicate_paths_cex :
    ((GetDirectory twoModuleDB "p/api" "v1.0.0").toOption.map
        fun d => d.packages.map fun p => p.path) =
      some ["p/api/sub", "p/api/sub"] ∧
    ¬ ∀ d, (GetDirectory twoModuleDB "p/api" "v1.0.0").toOption = some d →
      (d.packages.map fun p => p.path).Nodup := by
  constructor
  · decide
  · decide

/-- C6 amended: the packages of a successful `GetDirectory` result are
sorted (non-strictly) by import path; duplicate import paths can occur
when a path is provided by more than one matching module. -/
theorem getDirectory_sorted_by_path :
    ∀ (db : DB) (dp ver : String) (d : Directory),
      GetDirectory db dp ver = .ok d → List.Sorted pkgLE d.packages := by
  intro db dp ver d hd
  obtain ⟨_, hpkgs, _⟩ := getDirectory_ok_spec hd
  rw [hpkgs]
  exact List.sorted_insertionSort pkgLE (dirRows db dp ver)

/-- Witness for C6: the sortedness theorem applied to the concrete
`x/tools` store. -/
theorem getDirectory_sorted_by_path_witness :
    List.Sorted pkgLE [mkPkg "x/tools/go/packages" "x/tools" "v1.0.0"] :=
  getDirectory_sorted_by_path toolsDB "x/tools/go" "v1.0.0"
    ⟨"x/tools/go", "x/tools", "v1.0.0",
      [mkPkg "x/tools/go/packages" "x/tools" "v1.0.0"]⟩
    (by rfl)


/-- C5 counterexample: on the two-module store, the returned Directory
carries `ModulePath = "p/api"` while its second package record carries
`ModulePath = "p"`, so not all packages share the Directory's module
path. -/
theorem getDirectory_mixed_modules_cex :
    ((GetDirectory twoModuleDB "p/api" "v1.0.0").toOption.map
        fun d => d.modulePath) = some "p/api" ∧
    ((GetDirectory twoModuleDB "p/api" "v1.0.0").toOption.map
        fun d => d.packages.map fun p => p.modulePath) =
      some ["p/api", "p"] := by
  constructor
  · rfl
  · rfl

/-- C5 amended: on a concrete-version query every returned package
carries the queried version, which is also the Directory's version; the
Directory's module path and version are those of its first package
record.  (Module paths of the packages may differ from each other, as
the counterexample shows.) -/
theorem getDirectory_version_uniform :
    ∀ (db : DB) (dp ver : String) (d : Directory), ver ≠ Latest →
      GetDirectory db dp ver = .ok d →
      d.version = ver ∧ (∀ p ∈ d.packages, p.version = ver) ∧
      ∃ p ps, d.packages = p :: ps ∧ d.modulePath = p.modulePath ∧
        d.version = p.version := by
  intro db dp ver d hver hd
  obtain ⟨_, hpkgs, p, ps, hcons, hmod, hv⟩ := getDirectory_ok_spec hd
  have hvers : ∀ q ∈ d.packages, q.version = ver := by
    intro q hq
    rw [hpkgs] at hq
    have hq' : q ∈ dirRows db dp ver :=
      (List.perm_insertionSort pkgLE (dirRows db dp ver)).mem_iff.mp hq
    rw [dirRows, if_pos hver] at hq'
    obtain ⟨_, _, v, _, _, hvv, hveq, _⟩ := mem_dirRowsExact.mp hq'
    rw [← hvv, hveq]
  refine ⟨?_, hvers, p, ps, hcons, hmod, hv⟩
  rw [hv]
  exact hvers p (by rw [hcons]; exact List.mem_cons_self p ps)

/-- Witness for C5: the amended theorem applied to the two-module store;
every package of the result carries the queried version `v1.0.0`. -/
theorem getDirectory_version_uniform_witness :
    (⟨"p/api", "p/api", "v1.0.0",
        [mkPkg "p/api/sub" "p/api" "v1.0.0", mkPkg "p/api/sub" "p" "v1.0.0"]⟩ :
      Directory).version = "v1.0.0" :=
  (getDirectory_version_uniform twoModuleDB "p/api" "v1.0.0"
    ⟨"p/api", "p/api", "v1.0.0",
      [mkPkg "p/api/sub" "p/api" "v1.0.0", mkPkg "p/api/sub" "p" "v1.0.0"]⟩
    (by decide) (by rfl)).1


/-- C1 counterexample: a stored record whose import path equals the
queried `dirPath` exactly, with matching module and version, is NOT
included: the query's `path LIKE $1 || '/%'` requires a strict
sub-path, so the call reports not-found instead of returning the
package (the source's own comment at directory.go lines 34-36 documents
the exclusion). -/
theorem exact_path_not_included_cex :
    mkPkg "x/tools/go" "x/tools" "v1.0.0" ∈ exactPathDB.packages ∧
    (mkPkg "x/tools/go" "x/tools" "v1.0.0").path = "x/tools/go" ∧
    GetDirectory exactPathDB "x/tools/go" "v1.0.0" = .error DErr.notFound := by
  refine ⟨by decide, rfl, by rfl⟩

/-- C1 amended: for a concrete-version query over a wildcard-free
`dirPath`, a stored package record is included exactly when its import
path has `dirPath ++ "/"` as a literal prefix (a record at exactly
`dirPath` is excluded) and a version row of its own module at the
queried version passes the module rule. -/
theorem dir_inclusion_strict_subpath :
    ∀ (db : DB) (dp ver : String) (r : VersionedPackage),
      ver ≠ Latest → noWild dp →
      (r ∈ dirRows db dp ver ↔
        r ∈ db.packages ∧ (dp ++ "/").data <+: r.path.data ∧
        ∃ v ∈ db.versions, v.modulePath = r.modulePath ∧
          v.version = r.version ∧ v.version = ver ∧
          stringLike (dp ++ "/") (v.modulePath ++ "/%") = true) := by
  intro db dp ver r hver hw
  rw [dirRows, if_pos hver, mem_dirRowsExact,
    stringLike_slash_pct_iff r.path hw]

/-- Witness for C1: on the `x/tools` store, the record at
`x/tools/go/packages` is included for `dirPath = "x/tools/go"`, and the
sibling `x/tools/goop` — which shares the textual prefix but not the
`/`-delimited prefix — is not. -/
theorem dir_inclusion_strict_subpath_witness :
    mkPkg "x/tools/go/packages" "x/tools" "v1.0.0" ∈
      dirRows toolsDB "x/tools/go" "v1.0.0" ∧
    mkPkg "x/tools/goop" "x/tools" "v1.0.0" ∉
      dirRows toolsDB "x/tools/go" "v1.0.0" := by
  constructor
  · exact (dir_inclusion_strict_subpath toolsDB "x/tools/go" "v1.0.0"
      (mkPkg "x/tools/go/packages" "x/tools" "v1.0.0")
      (by decide) (by decide)).mpr (by decide)
  · intro hmem
    have h := (dir_inclusion_strict_subpath toolsDB "x/tools/go" "v1.0.0"
      (mkPkg "x/tools/goop" "x/tools" "v1.0.0")
      (by decide) (by decide)).mp hmem
    exact absurd h.2.1 (by decide)

/-- C2 counterexample: with package path `p/api/sub` provided by both
module `p/api` and module `p`, the call keeps the records of BOTH
modules — the record of the shorter module `p` is not discarded, so no
longest-module collapse happens. -/
theorem no_module_collapse_cex :
    GetDirectory twoModuleDB "p/api" "v1.0.0" =
      .ok ⟨"p/api", "p/api", "v1.0.0",
        [mkPkg "p/api/sub" "p/api" "v1.0.0",
         mkPkg "p/api/sub" "p" "v1.0.0"]⟩ := by
  rfl

/-- C2 amended: `GetDirectory` performs no per-module collapse: every
record that itself passes the path, module and version rules is kept,
regardless of which other modules also own matching records. -/
theorem no_module_collapse :
    ∀ (db : DB) (dp ver : String) (r : VersionedPackage) (v : VersionRow),
      ver ≠ Latest → r ∈ db.packages → v ∈ db.versions →
      v.modulePath = r.modulePath → v.version = r.version → v.version = ver →
      stringLike (dp ++ "/") (v.modulePath ++ "/%") = true →
      stringLike r.path (dp ++ "/%") = true →
      r ∈ dirRows db dp ver := by
  intro db dp ver r v hver hr hv hm hvv hveq hmlike hplike
  rw [dirRows, if_pos hver]
  exact mem_dirRowsExact.mpr ⟨hr, hplike, v, hv, hm, hvv, hveq, hmlike⟩

/-- Witness for C2: the record of the shorter module `p` is kept in the
result for `dirPath = "p/api"` on the two-module store. -/
theorem no_module_collapse_witness :
    mkPkg "p/api/sub" "p" "v1.0.0" ∈ dirRows twoModuleDB "p/api" "v1.0.0" :=
  no_module_collapse twoModuleDB "p/api" "v1.0.0"
    (mkPkg "p/api/sub" "p" "v1.0.0") (relRow "p" "v1.0.0" 1 0 0)
    (by decide) (by decide) (by decide) (by decide) (by decide) (by decide)
    (by decide) (by decide)


theorem dirRows_module_like {db : DB} {dp ver : String} {r : VersionedPackage}
    (hmem : r ∈ dirRows db dp ver) :
    stringLike (dp ++ "/") (r.modulePath ++ "/%") = true := by
  by_cases hver : ver = Latest
  · rw [dirRows, if_neg (by simp [hver])] at hmem
    obtain ⟨_, _, v, hv, hm, _⟩ := mem_dirRowsLatest.mp hmem
    have hcand := (latestRows_spec hv).1
    have := (List.mem_filter.mp hcand).2
    rw [hm] at this
    simpa using this
  · rw [dirRows, if_pos hver] at hmem
    obtain ⟨_, _, v, _, hm, _, _, hlike⟩ := mem_dirRowsExact.mp hmem
    rw [hm] at hlike
    exact hlike

/-- C4: a record of module `M` contributes to the result for `dirPath`
only if `dirPath ++ "/"` has `M ++ "/"` as a literal prefix — that is,
`M` equals `dirPath` or `M` is a proper ancestor of `dirPath` ending at a
`/` segment boundary.  This holds in both the concrete-version and the
latest branches. -/
theorem module_ownership_rule :
    ∀ (db : DB) (dp ver : String) (r : VersionedPackage),
      r ∈ dirRows db dp ver → noWild r.modulePath →
      (r.modulePath ++ "/").data <+: (dp ++ "/").data ∧
      (r.modulePath = dp ∨ (r.modulePath ++ "/").data <+: dp.data) := by
  intro db dp ver r hmem hw
  have hpre : (r.modulePath ++ "/").data <+: (dp ++ "/").data :=
    (stringLike_slash_pct_iff (dp ++ "/") hw).mp (dirRows_module_like hmem)
  refine ⟨hpre, ?_⟩
  have hpre' : (r.modulePath ++ "/").data <+: dp.data ++ ['/'] := by
    simpa using hpre
  rcases List.prefix_concat_iff.mp hpre' with heq | hstrict
  · left
    apply String.ext
    have heq' : r.modulePath.data ++ ['/'] = dp.data ++ ['/'] := by
      simpa using heq
    simpa using congrArg List.dropLast heq'
  · right
    exact hstrict

/-- Witness for C4: on the `x/tools` store the surviving record's module
`x/tools` is a proper `/`-boundary ancestor of the directory
`x/tools/go`. -/
theorem module_ownership_rule_witness :
    ("x/tools/" : String).data <+: ("x/tools/go/" : String).data ∧
    (("x/tools" : String) = "x/tools/go" ∨
      ("x/tools/" : String).data <+: ("x/tools/go" : String).data) :=
  module_ownership_rule toolsDB "x/tools/go" "v1.0.0"
    (mkPkg "x/tools/go/packages" "x/tools" "v1.0.0") (by decide) (by decide)


/-- C3: under the `"latest"` selector, per candidate module exactly one
version row survives `DISTINCT ON`, and it is ranked highest by the
`ORDER BY` key: no candidate row of the same module sorts strictly
before it; a release row is always selected over any prerelease row
whatever the numbers; and on the two-version registry of
`TestGetLatestInfo`, `GetInfo` at `"latest"` resolves `foo.com/bar` to
`v1.2.0`. -/
theorem latest_selection_ranking :
    (∀ (db : DB) (dp : String) (r : VersionRow), r ∈ latestRows db dp →
      r ∈ latestCandidates db dp ∧
      ∀ rp ∈ latestCandidates db dp, rp.modulePath = r.modulePath →
        rankBefore rp r = false) ∧
    (∀ (db : DB) (dp : String) (r rp : VersionRow), r ∈ latestRows db dp →
      rp ∈ latestRows db dp → r.modulePath = rp.modulePath → r = rp) ∧
    (∀ (db : DB) (dp : String) (v : VersionRow), v ∈ latestCandidates db dp →
      ∃ r ∈ latestRows db dp, r.modulePath = v.modulePath) ∧
    (∀ (l : List VersionRow) (r v : VersionRow), selectBest l = some r →
      v ∈ l → releaseFlag v = 0 → releaseFlag r = 0) ∧
    getInfo latestProxy "foo.com/bar" Latest =
      .ok ⟨"foo.com/bar", "v1.2.0"⟩ := by
  refine ⟨?_, ?_, ?_, ?_, by rfl⟩
  · intro db dp r hr
    obtain ⟨hcand, hmin⟩ := latestRows_spec hr
    refine ⟨hcand, fun rp hrp hrpm => ?_⟩
    have hle := hmin rp hrp hrpm
    cases hb : rankBefore rp r with
    | false => rfl
    | true =>
      exact absurd ((rankBefore_iff_key_lt rp r).mp hb) (not_lt_of_le hle)
  · intro db dp r rp hr hrp hm
    have h1 := latestRows_module_eq hr
    have h2 := latestRows_module_eq hrp
    rw [← hm] at h2
    rw [h1] at h2
    exact Option.some.inj h2
  · intro db dp v hv
    have hfil : v ∈ (latestCandidates db dp).filter
        fun w => w.modulePath == v.modulePath := by
      apply List.mem_filter.mpr
      simp [hv]
    obtain ⟨c, hc⟩ := selectBest_of_ne_nil (List.ne_nil_of_mem hfil)
    have hcmem := (selectBest_spec hc).1
    have hcmod : c.modulePath = v.modulePath := by
      simpa using (List.mem_filter.mp hcmem).2
    refine ⟨c, ?_, hcmod⟩
    apply mem_latestRows.mpr
    refine ⟨v.modulePath, ?_, hc⟩
    exact List.mem_dedup.mpr (List.mem_map.mpr ⟨v, hv, rfl⟩)
  · intro l r v hsel hv hrel
    have hle := (selectBest_spec hsel).2 v hv
    unfold key at hle
    rcases (Prod.Lex.le_iff _ _).mp hle with hlt | ⟨heq, _⟩
    · omega
    · simp only [Prod.fst] at heq
      rw [heq]
      exact hrel

/-- Witness for C3: on the store of the `TestGetLatestInfo` scenario the
selected row for `foo.com/bar` is `v1.2.0`, and the `v1.1.0` candidate
does not outrank it. -/
theorem latest_selection_ranking_witness :
    rankBefore (relRow "foo.com/bar" "v1.1.0" 1 1 0)
      (relRow "foo.com/bar" "v1.2.0" 1 2 0) = false :=
  (latest_selection_ranking.1 latestDB "foo.com/bar"
      (relRow "foo.com/bar" "v1.2.0" 1 2 0) (by decide)).2
    (relRow "foo.com/bar" "v1.1.0" 1 1 0) (by decide) rfl


/-- C8: `GetZip` on the unknown `my.mod/nonexistmodule@v1.0.0` fails
with the not-found kind; on `github.com/my/module@v1.0.0` it returns
exactly the seven expected entries, among them
`github.com/my/module@v1.0.0/go.mod`; and in general every entry of a
successful archive carries the literal `module@version/` prefix. -/
theorem getZip_notFound_and_prefixed :
    getZip defaultProxy "my.mod/nonexistmodule" "v1.0.0" =
      .error DErr.notFound ∧
    (getZip defaultProxy "github.com/my/module" "v1.0.0" =
        .ok ["github.com/my/module@v1.0.0/LICENSE",
             "github.com/my/module@v1.0.0/README.md",
             "github.com/my/module@v1.0.0/go.mod",
             "github.com/my/module@v1.0.0/foo/foo.go",
             "github.com/my/module@v1.0.0/foo/LICENSE.md",
             "github.com/my/module@v1.0.0/bar/bar.go",
             "github.com/my/module@v1.0.0/bar/LICENSE"] ∧
      ∀ es, getZip defaultProxy "github.com/my/module" "v1.0.0" = .ok es →
        es.length = 7 ∧ "github.com/my/module@v1.0.0/go.mod" ∈ es) ∧
    ∀ (proxy : List TestVersion) (m ver : String) (es : List String),
      getZip proxy m ver = .ok es →
      ∀ e ∈ es, (m ++ "@" ++ ver ++ "/").data <+: e.data := by
  refine ⟨by rfl, ⟨by rfl, ?_⟩, ?_⟩
  · intro es hes
    rw [show getZip defaultProxy "github.com/my/module" "v1.0.0" =
        .ok ["github.com/my/module@v1.0.0/LICENSE",
             "github.com/my/module@v1.0.0/README.md",
             "github.com/my/module@v1.0.0/go.mod",
             "github.com/my/module@v1.0.0/foo/foo.go",
             "github.com/my/module@v1.0.0/foo/LICENSE.md",
             "github.com/my/module@v1.0.0/bar/bar.go",
             "github.com/my/module@v1.0.0/bar/LICENSE"] from rfl] at hes
    cases hes
    exact ⟨rfl, by decide⟩
  · intro proxy m ver es hes e he
    unfold getZip at hes
    cases hfind : proxy.find? (fun t => t.modulePath == m && t.version == ver) with
    | none => rw [hfind] at hes; exact absurd hes (by simp)
    | some t =>
      rw [hfind] at hes
      dsimp only at hes
      split at hes
      · rename_i hall
        cases hes
        have := List.all_eq_true.mp hall e he
        exact List.isPrefixOf_iff_prefix.mp this
      · exact absurd hes (by simp)

/-- Witness for C8: the general prefix property applied to the default
registry's archive and its `go.mod` entry. -/
theorem getZip_notFound_and_prefixed_witness :
    ("github.com/my/module@v1.0.0/" : String).data <+:
      ("github.com/my/module@v1.0.0/go.mod" : String).data :=
  getZip_notFound_and_prefixed.2.2 defaultProxy "github.com/my/module" "v1.0.0"
    ["github.com/my/module@v1.0.0/LICENSE",
     "github.com/my/module@v1.0.0/README.md",
     "github.com/my/module@v1.0.0/go.mod",
     "github.com/my/module@v1.0.0/foo/foo.go",
     "github.com/my/module@v1.0.0/foo/LICENSE.md",
     "github.com/my/module@v1.0.0/bar/bar.go",
     "github.com/my/module@v1.0.0/bar/LICENSE"]
    (by rfl) "github.com/my/module@v1.0.0/go.mod" (by decide)

/-- C9: `ListVersions` returns only versions registered for exactly the
queried module path; on the three-version registry of
`TestListVersions` the result for `foo.com/bar` is
`["v1.1.0", "v1.2.0"]`, and the sibling `foo.com/baz`'s `v1.3.0` never
appears. -/
theorem listVersions_only_queried_module :
    (∀ (proxy : List TestVersion) (m : String) (vs : List String),
      listVersions proxy m = .ok vs →
      ∀ v ∈ vs, ∃ t ∈ proxy, t.modulePath = m ∧ t.version = v) ∧
    listVersions listProxy "foo.com/bar" = .ok ["v1.1.0", "v1.2.0"] ∧
    ∀ vs, listVersions listProxy "foo.com/bar" = .ok vs → "v1.3.0" ∉ vs := by
  refine ⟨?_, by rfl, ?_⟩
  · intro proxy m vs hvs v hv
    unfold listVersions at hvs
    by_cases hemp : (proxy.filter fun t => t.modulePath == m).isEmpty = true
    · rw [if_pos hemp] at hvs
      exact absurd hvs (by simp)
    · rw [if_neg hemp] at hvs
      cases hvs
      obtain ⟨t, ht, htv⟩ := List.mem_map.mp hv
      have := List.mem_filter.mp ht
      exact ⟨t, this.1, by simpa using this.2, htv⟩
  · intro vs hvs
    rw [show listVersions listProxy "foo.com/bar" = .ok ["v1.1.0", "v1.2.0"]
      from rfl] at hvs
    cases hvs
    decide

/-- Witness for C9: the general property applied to the concrete
registry: `v1.1.0` reported for `foo.com/bar` is indeed registered for
that module. -/
theorem listVersions_only_queried_module_witness :
    ∃ t ∈ listProxy, t.modulePath = "foo.com/bar" ∧ t.version = "v1.1.0" :=
  listVersions_only_queried_module.1 listProxy "foo.com/bar"
    ["v1.1.0", "v1.2.0"] (by rfl) "v1.1.0" (by decide)

end Pkgsite
